import Mathlib

/-!
Verification of `remove_duplicates.py`, the normalization-and-grouping core of
the csv-fuzzy-duplicate-remover repository.

The embedding below mirrors the Python source:
* a `Row` is the dictionary produced by `csv.DictReader` for one record, an
  ordered association of column names to raw string values;
* `Criteria` is the parsed specification dictionary: column name mapped to a
  method descriptor (itself a string-to-string dictionary);
* Python dictionaries are modelled as association lists with insertion-order
  preserving insert-or-overwrite (`dictInsert`) and key lookup (`dictGet`);
* exceptions (`KeyError` on a missing `"method"` key, `ValueError` on an
  unrecognised method name, `KeyError` on a column absent from a row) are
  modelled with `Except SpecError`;
* `str.lower` is modelled on its ASCII behaviour (`Char.toLower`), which is all
  the data handled here exercises, and
  `re.sub("[^a-z0-9]+", "", x)` is modelled as filtering the characters that
  lie in `[a-z0-9]`, which computes the same string.
-/

namespace RemoveDuplicates

/-- A CSV row: ordered mapping from column name to raw string value. -/
abbrev Row := List (String × String)

/-- A method descriptor from the JSON spec: a string-to-string dictionary. -/
abbrev Desc := List (String × String)

/-- The parsed specification: column name mapped to its method descriptor,
in JSON/dict iteration order. -/
abbrev Criteria := List (String × Desc)

/-- The retained-rows table built by `track_row`: composite key mapped to the
retained row, in dict insertion order. -/
abbrev Table := List (String × Row)

/-- The failures the core can raise: `KeyError` for a descriptor without a
`"method"` key, `ValueError` for an unrecognised method name, and `KeyError`
for a specified column absent from a data row. -/
inductive SpecError where
  | missingAttribute : SpecError
  | unrecognizedMethod : String → SpecError
  | missingColumn : String → SpecError
deriving DecidableEq, Repr

/-- Python dict lookup `d[k]` / membership `k in d`, as an `Option`. -/
def dictGet (k : String) : List (String × α) → Option α
  | [] => none
  | (k', v) :: rest => if k' = k then some v else dictGet k rest

/-- Python dict assignment `d[k] = v`: overwrite in place when the key is
present, append at the end otherwise. -/
def dictInsert (k : String) (v : α) : List (String × α) → List (String × α)
  | [] => [(k, v)]
  | (k', v') :: rest =>
      if k' = k then (k, v) :: rest else (k', v') :: dictInsert k v rest

/-- `ATTRIBUTE_METHOD` from the source. -/
def ATTRIBUTE_METHOD : String := "method"

/-- `METHOD_EXACT` from the source. -/
def METHOD_EXACT : String := "exact"

/-- `METHOD_EXACT_CASE_INSENSITIVE` from the source. -/
def METHOD_EXACT_CASE_INSENSITIVE : String := "exact_case_insensitive"

/-- `METHOD_EXACT_LOWERCASE_ALPHANUMERIC` from the source. -/
def METHOD_EXACT_LOWERCASE_ALPHANUMERIC : String := "exact_lower_alphanumeric"

/-- Python `x.lower()` on ASCII data: lowercase every character. -/
def pyLower (s : String) : String :=
  String.mk (s.data.map Char.toLower)

/-- Membership in the character class `[a-z0-9]`. -/
def isLowerAlnumChar (c : Char) : Bool :=
  (Char.ofNat 97 ≤ c && c ≤ Char.ofNat 122) || (Char.ofNat 48 ≤ c && c ≤ Char.ofNat 57)

/-- Python `re.sub("[^a-z0-9]+", "", s)`: delete every character outside
`[a-z0-9]`. -/
def stripNonLowerAlnum (s : String) : String :=
  String.mk (s.data.filter isLowerAlnumChar)

/-- `get_value_hash_function` from the source: map a method descriptor to the
string normalization function it names, or fail as the source's exceptions do. -/
def get_value_hash_function (method_and_params : Desc) :
    Except SpecError (String → String) :=
  match dictGet ATTRIBUTE_METHOD method_and_params with
  | some method =>
      if method = METHOD_EXACT then Except.ok (fun x => x)
      else if method = METHOD_EXACT_CASE_INSENSITIVE then Except.ok (fun x => pyLower x)
      else if method = METHOD_EXACT_LOWERCASE_ALPHANUMERIC then
        Except.ok (fun x => stripNonLowerAlnum (pyLower x))
      else Except.error (SpecError.unrecognizedMethod method)
  | none => Except.error SpecError.missingAttribute

/-- The list comprehension
`[get_value_hash_function(criteria[column_key]) for column_key in criteria]`:
resolve every descriptor in specification order, propagating the first
failure. -/
def resolveAll : Criteria → Except SpecError (List (String → String))
  | [] => Except.ok []
  | (_, desc) :: rest =>
      match get_value_hash_function desc with
      | Except.ok f =>
          match resolveAll rest with
          | Except.ok fs => Except.ok (f :: fs)
          | Except.error e => Except.error e
      | Except.error e => Except.error e

/-- The key-building loop of `track_row`: walk the specified columns (paired
with their resolved normalization functions), look each one up in the row, and
concatenate the normalized values; fail with the source's `KeyError` at the
first column absent from the row. -/
def buildKey (row : Row) : List (String × (String → String)) → Except SpecError String
  | [] => Except.ok ""
  | (column_key, vhf) :: rest =>
      match dictGet column_key row with
      | some v =>
          match buildKey row rest with
          | Except.ok tail => Except.ok (vhf v ++ tail)
          | Except.error e => Except.error e
      | none => Except.error (SpecError.missingColumn column_key)

/-- `track_row` from the source: compute the row's composite key and store the
row in the table under it, overwriting any previous holder of that key. -/
def track_row (row : Row) (column_keys : List String)
    (value_hash_functions : List (String → String)) (unique_rows : Table) :
    Except SpecError Table :=
  match buildKey row (column_keys.zip value_hash_functions) with
  | Except.ok hashed_key => Except.ok (dictInsert hashed_key row unique_rows)
  | Except.error e => Except.error e

/-- The `for row in reader` loop of `remove_duplicates`: per row, resolve the
normalization functions for the whole specification, then `track_row` it;
thread the table and the row count. -/
def remove_duplicates_loop (criteria : Criteria) :
    List Row → Table → Nat → Except SpecError (Table × Nat)
  | [], tracked_rows, row_count => Except.ok (tracked_rows, row_count)
  | row :: rest, tracked_rows, row_count =>
      match resolveAll criteria with
      | Except.ok vhfs =>
          match track_row row (criteria.map Prod.fst) vhfs tracked_rows with
          | Except.ok tracked' => remove_duplicates_loop criteria rest tracked' (row_count + 1)
          | Except.error e => Except.error e
      | Except.error e => Except.error e

/-- `remove_duplicates` from the source, over the row sequence the CSV reader
supplies: returns the retained-rows table together with the consumed row count
(the number the source prints, from which it reports
`removed = row_count - len(tracked_rows)`). -/
def remove_duplicates (criteria : Criteria) (rows : List Row) :
    Except SpecError (Table × Nat) :=
  remove_duplicates_loop criteria rows [] 0

/-- The composite key of one row under the specification: the normalized
values of the specified columns concatenated in specification order, exactly
as one iteration of `remove_duplicates_loop` computes it. -/
def keyOfRow (criteria : Criteria) (row : Row) : Except SpecError String :=
  match resolveAll criteria with
  | Except.ok vhfs => buildKey row ((criteria.map Prod.fst).zip vhfs)
  | Except.error e => Except.error e

/-- The last row of the list whose composite key under the specification is
the given key, if any. -/
def lastKeyed (criteria : Criteria) (k : String) : List Row → Option Row
  | [] => none
  | r :: rs =>
      match lastKeyed criteria k rs with
      | some x => some x
      | none =>
          match keyOfRow criteria r with
          | Except.ok k' => if k' = k then some r else none
          | Except.error _ => none

/-! ### Dictionary lemmas -/

theorem dictGet_dictInsert_self (k : String) (v : α) (d : List (String × α)) :
    dictGet k (dictInsert k v d) = some v := by
  induction d with
  | nil => simp [dictInsert, dictGet]
  | cons p rest ih =>
      obtain ⟨k', v'⟩ := p
      by_cases h : k' = k
      · simp [dictInsert, dictGet, h]
      · simp [dictInsert, dictGet, h, ih]

theorem dictGet_dictInsert_ne (hne : a ≠ k) (v : α) (d : List (String × α)) :
    dictGet a (dictInsert k v d) = dictGet a d := by
  have hka : ¬k = a := fun h => hne h.symm
  induction d with
  | nil => simp [dictInsert, dictGet, hka]
  | cons p rest ih =>
      obtain ⟨k', v'⟩ := p
      by_cases h : k' = k
      · subst h
        simp [dictInsert, dictGet, hka]
      · simp [dictInsert, dictGet, h, ih]

theorem mem_keys_dictInsert {a : String} {k : String} {v : α} {d : List (String × α)} :
    a ∈ (dictInsert k v d).map Prod.fst ↔ a = k ∨ a ∈ d.map Prod.fst := by
  induction d with
  | nil => simp [dictInsert]
  | cons p rest ih =>
      obtain ⟨k', v'⟩ := p
      by_cases h : k' = k
      · subst h
        simp [dictInsert]
      · simp [dictInsert, h, ih]
        tauto

theorem nodup_keys_dictInsert {k : String} {v : α} {d : List (String × α)}
    (hd : (d.map Prod.fst).Nodup) : ((dictInsert k v d).map Prod.fst).Nodup := by
  induction d with
  | nil => simp [dictInsert]
  | cons p rest ih =>
      obtain ⟨k', v'⟩ := p
      simp only [List.map_cons, List.nodup_cons] at hd
      by_cases h : k' = k
      · subst h
        simpa [dictInsert] using hd
      · have hnotmem : k' ∉ (dictInsert k v rest).map Prod.fst := by
          intro hmem
          rcases mem_keys_dictInsert.mp hmem with h1 | h1
          · exact h h1
          · exact hd.1 h1
        simp only [dictInsert, if_neg h, List.map_cons, List.nodup_cons]
        exact ⟨hnotmem, ih hd.2⟩

theorem mem_dictInsert {p : String × α} {k : String} {v : α} {d : List (String × α)}
    (hp : p ∈ dictInsert k v d) : p = (k, v) ∨ p ∈ d := by
  induction d with
  | nil => simpa [dictInsert] using hp
  | cons q rest ih =>
      obtain ⟨k', v'⟩ := q
      by_cases h : k' = k
      · subst h
        rcases (by simpa [dictInsert] using hp : p = (k', v) ∨ p ∈ rest) with h1 | h1
        · exact Or.inl h1
        · exact Or.inr (List.mem_cons_of_mem _ h1)
      · rcases (by simpa [dictInsert, h] using hp : p = (k', v') ∨ p ∈ dictInsert k v rest)
          with h1 | h1
        · exact Or.inr (by simp [h1])
        · rcases ih h1 with h2 | h2
          · exact Or.inl h2
          · exact Or.inr (List.mem_cons_of_mem _ h2)

theorem dictGet_eq_none_iff {k : String} {d : List (String × α)} :
    dictGet k d = none ↔ k ∉ d.map Prod.fst := by
  induction d with
  | nil => simp [dictGet]
  | cons p rest ih =>
      obtain ⟨k', v'⟩ := p
      by_cases h : k' = k
      · subst h
        simp [dictGet]
      · have hkk : ¬k = k' := fun hh => h hh.symm
        simp [dictGet, h, ih, hkk]

theorem length_dictInsert_of_not_mem {k : String} {v : α} {d : List (String × α)}
    (h : k ∉ d.map Prod.fst) : (dictInsert k v d).length = d.length + 1 := by
  induction d with
  | nil => simp [dictInsert]
  | cons p rest ih =>
      obtain ⟨k', v'⟩ := p
      simp only [List.map_cons, List.mem_cons] at h
      push_neg at h
      have hk : ¬k' = k := fun hh => h.1 hh.symm
      simp [dictInsert, hk, ih h.2]

theorem dictGet_eq_some_of_mem_nodup {k : String} {v : α} {d : List (String × α)}
    (hd : (d.map Prod.fst).Nodup) (hmem : (k, v) ∈ d) : dictGet k d = some v := by
  induction d with
  | nil => simp at hmem
  | cons p rest ih =>
      obtain ⟨k', v'⟩ := p
      simp only [List.map_cons, List.nodup_cons] at hd
      rcases List.mem_cons.mp hmem with h1 | h1
      · rw [Prod.mk.injEq] at h1
        simp [dictGet, h1.1, h1.2]
      · have hk : k' ≠ k := by
          intro h
          subst h
          exact hd.1 (by simpa using List.mem_map_of_mem Prod.fst h1)
        simp [dictGet, hk, ih hd.2 h1]

/-! ### Resolver and key lemmas -/

theorem resolveAll_length {criteria : Criteria} {fs : List (String → String)}
    (h : resolveAll criteria = Except.ok fs) : fs.length = criteria.length := by
  induction criteria generalizing fs with
  | nil =>
      simp only [resolveAll, Except.ok.injEq] at h
      simp [← h]
  | cons p rest ih =>
      obtain ⟨c, desc⟩ := p
      simp only [resolveAll] at h
      cases hg : get_value_hash_function desc with
      | error e => rw [hg] at h; cases h
      | ok f =>
          rw [hg] at h
          cases hr : resolveAll rest with
          | error e => rw [hr] at h; cases h
          | ok fs' =>
              rw [hr] at h
              simp only [Except.ok.injEq] at h
              simp [← h, ih hr]

theorem keyOfRow_eq_buildKey {criteria : Criteria} {fs : List (String → String)}
    (h : resolveAll criteria = Except.ok fs) (row : Row) :
    keyOfRow criteria row = buildKey row ((criteria.map Prod.fst).zip fs) := by
  simp [keyOfRow, h]

theorem lastKeyed_mem {criteria : Criteria} {k : String} {rows : List Row} {x : Row}
    (h : lastKeyed criteria k rows = some x) :
    x ∈ rows ∧ keyOfRow criteria x = Except.ok k := by
  induction rows with
  | nil => cases h
  | cons r rs ih =>
      simp only [lastKeyed] at h
      cases hlast : lastKeyed criteria k rs with
      | some y =>
          rw [hlast] at h
          obtain ⟨hmem, hkey⟩ := ih (by rw [hlast, ← h])
          exact ⟨List.mem_cons_of_mem _ hmem, hkey⟩
      | none =>
          rw [hlast] at h
          cases hk : keyOfRow criteria r with
          | error e => rw [hk] at h; cases h
          | ok k' =>
              rw [hk] at h
              by_cases hkk : k' = k
              · simp only [hkk, if_true] at h
                have hrx : r = x := by simpa using h
                subst hrx
                exact ⟨List.mem_cons_self _ _, by rw [hk, hkk]⟩
              · simp [hkk] at h

theorem lastKeyed_eq_some_of_mem {criteria : Criteria} {k : String} {rows : List Row}
    {r0 : Row} (hmem : r0 ∈ rows) (hk : keyOfRow criteria r0 = Except.ok k) :
    ∃ r, lastKeyed criteria k rows = some r := by
  induction rows with
  | nil => cases hmem
  | cons r rs ih =>
      cases hlast : lastKeyed criteria k rs with
      | some y => exact ⟨y, by simp [lastKeyed, hlast]⟩
      | none =>
          rcases List.mem_cons.mp hmem with h1 | h1
          · subst h1
            exact ⟨r0, by simp [lastKeyed, hlast, hk]⟩
          · obtain ⟨x, hx⟩ := ih h1
            rw [hlast] at hx
            cases hx

theorem lastKeyed_eq_of_unique {criteria : Criteria} {k : String} {rows : List Row}
    {r : Row} (hmem : r ∈ rows) (hk : keyOfRow criteria r = Except.ok k)
    (huniq : ∀ r' ∈ rows, keyOfRow criteria r' = Except.ok k → r' = r) :
    lastKeyed criteria k rows = some r := by
  induction rows with
  | nil => cases hmem
  | cons a rs ih =>
      by_cases hex : ∃ x ∈ rs, keyOfRow criteria x = Except.ok k
      · obtain ⟨x, hxmem, hxkey⟩ := hex
        have hxr : x = r := huniq x (List.mem_cons_of_mem _ hxmem) hxkey
        subst hxr
        have : lastKeyed criteria k rs = some x := by
          exact ih hxmem (fun r' hr' hk' => huniq r' (List.mem_cons_of_mem _ hr') hk')
        simp [lastKeyed, this]
      · have hlast : lastKeyed criteria k rs = none := by
          cases hl : lastKeyed criteria k rs with
          | none => rfl
          | some y =>
              obtain ⟨hymem, hykey⟩ := lastKeyed_mem hl
              exact absurd ⟨y, hymem, hykey⟩ hex
        have har : a = r := by
          rcases List.mem_cons.mp hmem with h1 | h1
          · exact h1.symm
          · exact absurd ⟨r, h1, hk⟩ hex
        subst har
        simp [lastKeyed, hlast, hk]

/-! ### Loop lemmas -/

theorem remove_duplicates_loop_cons_ok {criteria : Criteria} {r : Row} {rs : List Row}
    {t : Table} {n : Nat} {t' : Table} {n' : Nat}
    (h : remove_duplicates_loop criteria (r :: rs) t n = Except.ok (t', n')) :
    ∃ fs k, resolveAll criteria = Except.ok fs ∧
      keyOfRow criteria r = Except.ok k ∧
      remove_duplicates_loop criteria rs (dictInsert k r t) (n + 1) = Except.ok (t', n') := by
  simp only [remove_duplicates_loop] at h
  cases hres : resolveAll criteria with
  | error e => rw [hres] at h; cases h
  | ok fs =>
      rw [hres] at h
      simp only [] at h
      cases htr : track_row r (criteria.map Prod.fst) fs t with
      | error e => rw [htr] at h; cases h
      | ok t1 =>
          rw [htr] at h
          simp only [] at h
          unfold track_row at htr
          cases hb : buildKey r ((criteria.map Prod.fst).zip fs) with
          | error e => rw [hb] at htr; cases htr
          | ok k =>
              rw [hb] at htr
              simp only [Except.ok.injEq] at htr
              refine ⟨fs, k, rfl, ?_, ?_⟩
              · rw [keyOfRow_eq_buildKey hres, hb]
              · rw [htr]
                exact h

theorem remove_duplicates_loop_resolveError {criteria : Criteria} {r : Row} {rs : List Row}
    {t : Table} {n : Nat} {e : SpecError} (h : resolveAll criteria = Except.error e) :
    remove_duplicates_loop criteria (r :: rs) t n = Except.error e := by
  simp [remove_duplicates_loop, h]

theorem remove_duplicates_loop_count {criteria : Criteria} {rows : List Row} :
    ∀ {t : Table} {n : Nat} {t' : Table} {n' : Nat},
      remove_duplicates_loop criteria rows t n = Except.ok (t', n') →
      n' = n + rows.length := by
  induction rows with
  | nil =>
      intro t n t' n' h
      simp only [remove_duplicates_loop, Except.ok.injEq, Prod.mk.injEq] at h
      simp [h.2]
  | cons r rs ih =>
      intro t n t' n' h
      obtain ⟨fs, k, _, _, hloop⟩ := remove_duplicates_loop_cons_ok h
      have := ih hloop
      simp only [List.length_cons]
      omega

theorem remove_duplicates_loop_lookup {criteria : Criteria} {rows : List Row} :
    ∀ {t : Table} {n : Nat} {t' : Table} {n' : Nat},
      remove_duplicates_loop criteria rows t n = Except.ok (t', n') → ∀ k : String,
        (∀ r, lastKeyed criteria k rows = some r → dictGet k t' = some r)
        ∧ (lastKeyed criteria k rows = none → dictGet k t' = dictGet k t) := by
  induction rows with
  | nil =>
      intro t n t' n' h k
      simp only [remove_duplicates_loop, Except.ok.injEq, Prod.mk.injEq] at h
      refine ⟨?_, ?_⟩
      · intro x hx
        cases hx
      · intro _
        rw [h.1]
  | cons r rs ih =>
      intro t n t' n' h k
      obtain ⟨fs, kr, hres, hkey, hloop⟩ := remove_duplicates_loop_cons_ok h
      constructor
      · intro x hx
        simp only [lastKeyed] at hx
        cases hlast : lastKeyed criteria k rs with
        | some y =>
            rw [hlast] at hx
            have hyx : y = x := by simpa using hx
            exact (ih hloop k).1 x (by rw [hlast, hyx])
        | none =>
            rw [hlast, hkey] at hx
            by_cases hkk : kr = k
            · simp only [hkk, if_true] at hx
              have hrx : r = x := by simpa using hx
              subst hrx
              rw [(ih hloop k).2 hlast, ← hkk, dictGet_dictInsert_self]
            · simp [hkk] at hx
      · intro hnone
        simp only [lastKeyed] at hnone
        cases hlast : lastKeyed criteria k rs with
        | some y => rw [hlast] at hnone; cases hnone
        | none =>
            rw [hlast, hkey] at hnone
            by_cases hkk : kr = k
            · simp [hkk] at hnone
            · rw [(ih hloop k).2 hlast]
              exact dictGet_dictInsert_ne (fun hh => hkk hh.symm) r t

theorem remove_duplicates_loop_inv {criteria : Criteria} {rows : List Row} :
    ∀ {t : Table} {n : Nat} {t' : Table} {n' : Nat},
      remove_duplicates_loop criteria rows t n = Except.ok (t', n') →
      (t.map Prod.fst).Nodup → (∀ p ∈ t, keyOfRow criteria p.2 = Except.ok p.1) →
      (t'.map Prod.fst).Nodup ∧ ∀ p ∈ t', keyOfRow criteria p.2 = Except.ok p.1 := by
  induction rows with
  | nil =>
      intro t n t' n' h hnd hkeys
      simp only [remove_duplicates_loop, Except.ok.injEq, Prod.mk.injEq] at h
      rw [← h.1]
      exact ⟨hnd, hkeys⟩
  | cons r rs ih =>
      intro t n t' n' h hnd hkeys
      obtain ⟨fs, kr, hres, hkey, hloop⟩ := remove_duplicates_loop_cons_ok h
      refine ih hloop (nodup_keys_dictInsert hnd) ?_
      intro p hp
      rcases mem_dictInsert hp with h1 | h1
      · rw [h1]
        exact hkey
      · exact hkeys p h1

/-! ### Missing-column lemmas -/

theorem buildKey_error_of_missing {row : Row} {L : List (String × (String → String))}
    (h : ∃ q ∈ L, dictGet q.1 row = none) :
    ∃ col, buildKey row L = Except.error (SpecError.missingColumn col)
      ∧ col ∈ L.map Prod.fst ∧ dictGet col row = none := by
  induction L with
  | nil => obtain ⟨q, hq, _⟩ := h; cases hq
  | cons q rest ih =>
      obtain ⟨c0, f0⟩ := q
      cases hg : dictGet c0 row with
      | none => exact ⟨c0, by simp [buildKey, hg], by simp, hg⟩
      | some v =>
          have h' : ∃ q ∈ rest, dictGet q.1 row = none := by
            obtain ⟨q, hq, hqn⟩ := h
            rcases List.mem_cons.mp hq with h1 | h1
            · rw [h1] at hqn
              rw [hqn] at hg
              cases hg
            · exact ⟨q, h1, hqn⟩
          obtain ⟨col, hb, hcm, hcn⟩ := ih h'
          exact ⟨col, by simp [buildKey, hg, hb], by simp [hcm], hcn⟩

theorem buildKey_ok_of_present {row : Row} {L : List (String × (String → String))}
    (h : ∀ q ∈ L, dictGet q.1 row ≠ none) :
    ∃ key, buildKey row L = Except.ok key := by
  induction L with
  | nil => exact ⟨"", rfl⟩
  | cons q rest ih =>
      obtain ⟨c0, f0⟩ := q
      cases hg : dictGet c0 row with
      | none => exact absurd hg (h (c0, f0) (by simp))
      | some v =>
          obtain ⟨key, hk⟩ := ih (fun q hq => h q (List.mem_cons_of_mem _ hq))
          exact ⟨f0 v ++ key, by simp [buildKey, hg, hk]⟩

theorem remove_duplicates_loop_missing {criteria : Criteria} {fs : List (String → String)}
    (hres : resolveAll criteria = Except.ok fs) :
    ∀ {rows : List Row}, (∃ r ∈ rows, ∃ cd ∈ criteria, dictGet cd.1 r = none) →
    ∀ (t : Table) (n : Nat),
      ∃ col, remove_duplicates_loop criteria rows t n =
          Except.error (SpecError.missingColumn col)
        ∧ col ∈ criteria.map Prod.fst ∧ ∃ r ∈ rows, dictGet col r = none := by
  have hlen : (criteria.map Prod.fst).length ≤ fs.length := by
    simp [resolveAll_length hres]
  have hzipfst : ((criteria.map Prod.fst).zip fs).map Prod.fst = criteria.map Prod.fst :=
    List.map_fst_zip _ _ hlen
  intro rows
  induction rows with
  | nil =>
      intro hmiss
      obtain ⟨r, hr, _⟩ := hmiss
      cases hr
  | cons r rs ih =>
      intro hmiss t n
      by_cases hr : ∃ cd ∈ criteria, dictGet cd.1 r = none
      · obtain ⟨cd, hcd, hcdn⟩ := hr
        have hmem : cd.1 ∈ ((criteria.map Prod.fst).zip fs).map Prod.fst := by
          rw [hzipfst]
          exact List.mem_map_of_mem Prod.fst hcd
        obtain ⟨q, hq, hq1⟩ := List.mem_map.mp hmem
        have hqn : dictGet q.1 r = none := by rw [hq1]; exact hcdn
        obtain ⟨col, hb, hcm, hcn⟩ := buildKey_error_of_missing ⟨q, hq, hqn⟩
        refine ⟨col, ?_, by rw [← hzipfst]; exact hcm, ⟨r, by simp, hcn⟩⟩
        simp [remove_duplicates_loop, hres, track_row, hb]
      · have hall : ∀ q ∈ (criteria.map Prod.fst).zip fs, dictGet q.1 r ≠ none := by
          intro q hq hn
          have hq1 : q.1 ∈ criteria.map Prod.fst := by
            rw [← hzipfst]
            exact List.mem_map_of_mem Prod.fst hq
          obtain ⟨cd, hcd, hcd1⟩ := List.mem_map.mp hq1
          exact hr ⟨cd, hcd, by rw [hcd1]; exact hn⟩
        obtain ⟨key, hk⟩ := buildKey_ok_of_present hall
        have hmiss2 : ∃ r' ∈ rs, ∃ cd ∈ criteria, dictGet cd.1 r' = none := by
          obtain ⟨r', hr', hcd⟩ := hmiss
          rcases List.mem_cons.mp hr' with h1 | h1
          · rw [h1] at hcd
            exact absurd hcd hr
          · exact ⟨r', h1, hcd⟩
        obtain ⟨col, hloop, hcm, r', hr', hcn⟩ := ih hmiss2 (dictInsert key r t) (n + 1)
        refine ⟨col, ?_, hcm, ⟨r', List.mem_cons_of_mem _ hr', hcn⟩⟩
        simp [remove_duplicates_loop, hres, track_row, hk, hloop]

/-! ### Fresh-keys lemma (for idempotence) -/

theorem remove_duplicates_loop_fresh {criteria : Criteria} :
    ∀ (entries : List (String × Row)) (t : Table) (n : Nat),
      (entries.map Prod.fst).Nodup →
      (∀ p ∈ entries, keyOfRow criteria p.2 = Except.ok p.1) →
      (∀ p ∈ entries, dictGet p.1 t = none) →
      ∃ t', remove_duplicates_loop criteria (entries.map Prod.snd) t n =
          Except.ok (t', n + entries.length)
        ∧ t'.length = t.length + entries.length := by
  intro entries
  induction entries with
  | nil => exact fun t n _ _ _ => ⟨t, rfl, rfl⟩
  | cons p rest ih =>
      intro t n hnd hkeys hfresh
      obtain ⟨k, r⟩ := p
      have hkey : keyOfRow criteria r = Except.ok k := hkeys (k, r) (by simp)
      cases hres : resolveAll criteria with
      | error e => rw [keyOfRow, hres] at hkey; cases hkey
      | ok fs =>
          have hb : buildKey r ((criteria.map Prod.fst).zip fs) = Except.ok k := by
            rw [← keyOfRow_eq_buildKey hres]
            exact hkey
          simp only [List.map_cons, List.nodup_cons] at hnd
          have hfresh' : ∀ p ∈ rest, dictGet p.1 (dictInsert k r t) = none := by
            intro q hq
            have hne : q.1 ≠ k := by
              intro hh
              exact hnd.1 (hh ▸ List.mem_map_of_mem Prod.fst hq)
            rw [dictGet_dictInsert_ne hne]
            exact hfresh q (List.mem_cons_of_mem _ hq)
          obtain ⟨t', hloop, hlen⟩ := ih (dictInsert k r t) (n + 1) hnd.2
            (fun q hq => hkeys q (List.mem_cons_of_mem _ hq)) hfresh'
          refine ⟨t', ?_, ?_⟩
          · have harith : n + 1 + rest.length = n + (rest.length + 1) := by omega
            rw [harith] at hloop
            simpa [remove_duplicates_loop, hres, track_row, hb] using hloop
          · have hknot : k ∉ t.map Prod.fst :=
              dictGet_eq_none_iff.mp (hfresh (k, r) (by simp))
            rw [hlen, length_dictInsert_of_not_mem hknot]
            simp
            omega

/-! ### Configuration-error lemmas -/

theorem get_value_hash_function_error_shape {d : Desc} {e : SpecError}
    (h : get_value_hash_function d = Except.error e) :
    e = SpecError.missingAttribute ∨ ∃ m, e = SpecError.unrecognizedMethod m := by
  unfold get_value_hash_function at h
  cases hg : dictGet ATTRIBUTE_METHOD d with
  | none =>
      rw [hg] at h
      simp only [] at h
      cases h
      exact Or.inl rfl
  | some m =>
      rw [hg] at h
      simp only [] at h
      split_ifs at h
      injection h with h2
      exact Or.inr ⟨m, h2.symm⟩

theorem resolveAll_error_shape {criteria : Criteria} {e : SpecError}
    (h : resolveAll criteria = Except.error e) :
    e = SpecError.missingAttribute ∨ ∃ m, e = SpecError.unrecognizedMethod m := by
  induction criteria with
  | nil => cases h
  | cons p rest ih =>
      obtain ⟨c, desc⟩ := p
      simp only [resolveAll] at h
      cases hg : get_value_hash_function desc with
      | error e' =>
          rw [hg] at h
          simp only [] at h
          cases h
          exact get_value_hash_function_error_shape hg
      | ok f =>
          rw [hg] at h
          simp only [] at h
          cases hr : resolveAll rest with
          | error e' =>
              rw [hr] at h
              simp only [] at h
              cases h
              exact ih hr
          | ok fs =>
              rw [hr] at h
              simp only [] at h
              cases h

/-! ### Empty-specification lemmas -/

theorem remove_duplicates_loop_empty_criteria (rows : List Row) :
    ∀ (v : Row) (n : Nat),
      remove_duplicates_loop [] rows [("", v)] n =
        Except.ok ([("", rows.getLastD v)], n + rows.length) := by
  induction rows with
  | nil => intro v n; rfl
  | cons r rs ih =>
      intro v n
      have step : remove_duplicates_loop [] (r :: rs) [("", v)] n =
          remove_duplicates_loop [] rs [("", r)] (n + 1) := by
        simp [remove_duplicates_loop, resolveAll, track_row, buildKey, dictInsert]
      rw [step, ih r (n + 1)]
      simp only [Except.ok.injEq, Prod.mk.injEq, List.getLastD_cons, List.length_cons]
      exact ⟨trivial, by omega⟩

/-! ### Claim theorems -/

/-- C1: Last-write-wins survivorship: whenever `remove_duplicates` succeeds
and some input row has composite key `k`, the retained-rows table maps `k` to
the last input row whose composite key is `k`, and no other row of the table
has composite key `k`. -/
theorem claim_C1_last_write_wins (criteria : Criteria) (rows : List Row)
    (t : Table) (n : Nat) (r0 : Row) (k : String)
    (hrun : remove_duplicates criteria rows = Except.ok (t, n))
    (hr0 : r0 ∈ rows) (hk : keyOfRow criteria r0 = Except.ok k) :
    ∃ r, lastKeyed criteria k rows = some r
      ∧ dictGet k t = some r
      ∧ ∀ p ∈ t, keyOfRow criteria p.2 = Except.ok k → p = (k, r) := by
  obtain ⟨r, hlast⟩ := lastKeyed_eq_some_of_mem hr0 hk
  have hrun' : remove_duplicates_loop criteria rows [] 0 = Except.ok (t, n) := hrun
  have hlookup := (remove_duplicates_loop_lookup hrun' k).1 r hlast
  have hinv := remove_duplicates_loop_inv hrun' (by simp) (by simp)
  refine ⟨r, hlast, hlookup, ?_⟩
  intro p hp hpk
  have hkeyp : Except.ok (α := String) (ε := SpecError) p.1 = Except.ok k := by
    rw [← hinv.2 p hp, hpk]
  have hp1 : p.1 = k := by injection hkeyp
  have hmem : (p.1, p.2) ∈ t := hp
  have hsome : dictGet p.1 t = some p.2 := dictGet_eq_some_of_mem_nodup hinv.1 hmem
  rw [hp1, hlookup] at hsome
  have hp2 : r = p.2 := by injection hsome
  rw [Prod.ext_iff]
  exact ⟨hp1, hp2.symm⟩

/-- C1 witness: the spec's end-to-end scenario with
`{"name": {"method": "exact_case_insensitive"}}` over three rows; the key
"alice" retains the second row. -/
theorem claim_C1_witness :
    ∃ r, lastKeyed [("name", [("method", "exact_case_insensitive")])] "alice"
          [[("id", "1"), ("name", "Alice")],
           [("id", "2"), ("name", "alice")],
           [("id", "3"), ("name", "Bob")]] = some r
      ∧ dictGet "alice"
          [("alice", [("id", "2"), ("name", "alice")]),
           ("bob", [("id", "3"), ("name", "Bob")])] = some r
      ∧ ∀ p ∈ ([("alice", [("id", "2"), ("name", "alice")]),
                ("bob", [("id", "3"), ("name", "Bob")])] : Table),
          keyOfRow [("name", [("method", "exact_case_insensitive")])] p.2 =
            Except.ok "alice" → p = ("alice", r) :=
  claim_C1_last_write_wins
    [("name", [("method", "exact_case_insensitive")])]
    [[("id", "1"), ("name", "Alice")],
     [("id", "2"), ("name", "alice")],
     [("id", "3"), ("name", "Bob")]]
    [("alice", [("id", "2"), ("name", "alice")]),
     ("bob", [("id", "3"), ("name", "Bob")])]
    3 [("id", "1"), ("name", "Alice")] "alice"
    (by rfl) (List.mem_cons_self _ _) (by rfl)

/-- C3: whenever `remove_duplicates` succeeds it reports the total number of
consumed rows, the table keys are pairwise distinct (so the retained count is
the number of distinct composite keys and `removed = total - retained`), and
every row whose composite key no other row shares is retained. -/
theorem claim_C3_counts_and_no_unintended_merging (criteria : Criteria)
    (rows : List Row) (t : Table) (n : Nat)
    (hrun : remove_duplicates criteria rows = Except.ok (t, n)) :
    n = rows.length
    ∧ (t.map Prod.fst).Nodup
    ∧ ∀ r k, r ∈ rows → keyOfRow criteria r = Except.ok k →
        (∀ r' ∈ rows, keyOfRow criteria r' = Except.ok k → r' = r) →
        dictGet k t = some r := by
  have hrun' : remove_duplicates_loop criteria rows [] 0 = Except.ok (t, n) := hrun
  refine ⟨?_, (remove_duplicates_loop_inv hrun' (by simp) (by simp)).1, ?_⟩
  · have := remove_duplicates_loop_count hrun'
    omega
  · intro r k hr hk huniq
    exact (remove_duplicates_loop_lookup hrun' k).1 r (lastKeyed_eq_of_unique hr hk huniq)

/-- C3 witness: two rows with distinct "id" values under `exact`; both are
retained, total is 2. -/
theorem claim_C3_witness :
    (2 : Nat) = ([[("id", "1")], [("id", "2")]] : List Row).length
    ∧ (([("1", [("id", "1")]), ("2", [("id", "2")])] : Table).map Prod.fst).Nodup
    ∧ ∀ r k, r ∈ ([[("id", "1")], [("id", "2")]] : List Row) →
        keyOfRow [("id", [("method", "exact")])] r = Except.ok k →
        (∀ r' ∈ ([[("id", "1")], [("id", "2")]] : List Row),
          keyOfRow [("id", [("method", "exact")])] r' = Except.ok k → r' = r) →
        dictGet k [("1", [("id", "1")]), ("2", [("id", "2")])] = some r :=
  claim_C3_counts_and_no_unintended_merging
    [("id", [("method", "exact")])]
    [[("id", "1")], [("id", "2")]]
    [("1", [("id", "1")]), ("2", [("id", "2")])]
    2 (by rfl)

/-- C2: method semantics: `exact` is the identity, `exact_case_insensitive`
lowercases, and `exact_lower_alphanumeric` lowercases and then deletes every
character outside `[a-z0-9]` with no separator substitution; in particular it
maps "AB-12 cd" to "ab12cd". -/
theorem claim_C2_normalization_method_semantics (s : String) :
    (get_value_hash_function [(ATTRIBUTE_METHOD, METHOD_EXACT)]).map
        (fun f => f s) = Except.ok s
    ∧ (get_value_hash_function [(ATTRIBUTE_METHOD, METHOD_EXACT_CASE_INSENSITIVE)]).map
        (fun f => f s) = Except.ok (pyLower s)
    ∧ (get_value_hash_function [(ATTRIBUTE_METHOD, METHOD_EXACT_LOWERCASE_ALPHANUMERIC)]).map
        (fun f => f s) = Except.ok (String.mk ((pyLower s).data.filter isLowerAlnumChar))
    ∧ (get_value_hash_function [(ATTRIBUTE_METHOD, METHOD_EXACT_LOWERCASE_ALPHANUMERIC)]).map
        (fun f => f "AB-12 cd") = Except.ok "ab12cd" :=
  ⟨rfl, rfl, rfl, rfl⟩

/-- C4: with a resolvable specification, an input containing a row that lacks
a specified column makes the whole run fail with a missing-column error naming
a specified column absent from some row; no table is produced. -/
theorem claim_C4_missing_column_aborts (criteria : Criteria) (rows : List Row)
    (fs : List (String → String))
    (hres : resolveAll criteria = Except.ok fs)
    (hmiss : ∃ r ∈ rows, ∃ cd ∈ criteria, dictGet cd.1 r = none) :
    ∃ col, remove_duplicates criteria rows = Except.error (SpecError.missingColumn col)
      ∧ col ∈ criteria.map Prod.fst
      ∧ ∃ r ∈ rows, dictGet col r = none :=
  remove_duplicates_loop_missing hres hmiss [] 0

/-- C4 witness: spec names "name" under `exact`, the only row has just "id";
the run aborts with a missing-column error for "name". -/
theorem claim_C4_witness :
    ∃ col, remove_duplicates [("name", [("method", "exact")])] [[("id", "1")]] =
        Except.error (SpecError.missingColumn col)
      ∧ col ∈ ([("name", [("method", "exact")])] : Criteria).map Prod.fst
      ∧ ∃ r ∈ ([[("id", "1")]] : List Row), dictGet col r = none :=
  claim_C4_missing_column_aborts [("name", [("method", "exact")])] [[("id", "1")]]
    [fun x => x] (by rfl)
    ⟨[("id", "1")], List.mem_cons_self _ _,
     ("name", [("method", "exact")]), List.mem_cons_self _ _, rfl⟩

/-- C5: resolver error contract: a descriptor without the "method" key fails
with the missing-attribute error; a present but unrecognized method name fails
with the unrecognized-method error naming it; any of the three recognized
names yields a normalization function. -/
theorem claim_C5_resolver_error_contract (d : Desc) :
    (dictGet ATTRIBUTE_METHOD d = none →
        get_value_hash_function d = Except.error SpecError.missingAttribute)
    ∧ (∀ m, dictGet ATTRIBUTE_METHOD d = some m → m ≠ METHOD_EXACT →
        m ≠ METHOD_EXACT_CASE_INSENSITIVE → m ≠ METHOD_EXACT_LOWERCASE_ALPHANUMERIC →
        get_value_hash_function d = Except.error (SpecError.unrecognizedMethod m))
    ∧ (∀ m, dictGet ATTRIBUTE_METHOD d = some m →
        (m = METHOD_EXACT ∨ m = METHOD_EXACT_CASE_INSENSITIVE ∨
          m = METHOD_EXACT_LOWERCASE_ALPHANUMERIC) →
        ∃ f, get_value_hash_function d = Except.ok f) := by
  refine ⟨?_, ?_, ?_⟩
  · intro h
    simp [get_value_hash_function, h]
  · intro m hm h1 h2 h3
    simp [get_value_hash_function, hm, h1, h2, h3]
  · intro m hm hrec
    rcases hrec with h | h | h
    · exact ⟨fun x => x, by subst h; unfold get_value_hash_function; rw [hm]; rfl⟩
    · exact ⟨fun x => pyLower x, by subst h; unfold get_value_hash_function; rw [hm]; rfl⟩
    · exact ⟨fun x => stripNonLowerAlnum (pyLower x), by
        subst h; unfold get_value_hash_function; rw [hm]; rfl⟩

/-- C5 witness: the three contract branches at concrete descriptors. -/
theorem claim_C5_witness :
    get_value_hash_function [("other", "x")] = Except.error SpecError.missingAttribute
    ∧ get_value_hash_function [("method", "bogus")] =
        Except.error (SpecError.unrecognizedMethod "bogus")
    ∧ ∃ f, get_value_hash_function [("method", "exact")] = Except.ok f :=
  ⟨(claim_C5_resolver_error_contract [("other", "x")]).1 (by rfl),
   (claim_C5_resolver_error_contract [("method", "bogus")]).2.1 "bogus" (by rfl)
     (by decide) (by decide) (by decide),
   (claim_C5_resolver_error_contract [("method", "exact")]).2.2 "exact" (by rfl)
     (Or.inl rfl)⟩

/-- C6: the composite key concatenates normalized column values with no
delimiter, so the two-column `exact` specification maps the distinct value
tuples ("1","23") and ("12","3") to the same key "123", and the two rows
collapse to a single retained row (the later one). -/
theorem claim_C6_key_concatenation_aliasing :
    (∀ v1 v2 : String,
      keyOfRow [("a", [("method", "exact")]), ("b", [("method", "exact")])]
        [("a", v1), ("b", v2)] = Except.ok (v1 ++ v2))
    ∧ keyOfRow [("a", [("method", "exact")]), ("b", [("method", "exact")])]
        [("a", "1"), ("b", "23")] = Except.ok "123"
    ∧ keyOfRow [("a", [("method", "exact")]), ("b", [("method", "exact")])]
        [("a", "12"), ("b", "3")] = Except.ok "123"
    ∧ ([("a", "1"), ("b", "23")] : Row) ≠ [("a", "12"), ("b", "3")]
    ∧ remove_duplicates [("a", [("method", "exact")]), ("b", [("method", "exact")])]
        [[("a", "1"), ("b", "23")], [("a", "12"), ("b", "3")]] =
        Except.ok ([("123", [("a", "12"), ("b", "3")])], 2) := by
  refine ⟨?_, by rfl, by rfl, by decide, by rfl⟩
  intro v1 v2
  show Except.ok (v1 ++ (v2 ++ "")) = Except.ok (v1 ++ v2)
  rw [String.append_empty]

/-- C7: idempotence: rerunning the engine on the rows it retained, with the
same specification, succeeds and keeps every row (result size equals the
second run's input size). -/
theorem claim_C7_idempotence (criteria : Criteria) (rows : List Row)
    (t : Table) (n : Nat)
    (hrun : remove_duplicates criteria rows = Except.ok (t, n)) :
    ∃ t2, remove_duplicates criteria (t.map Prod.snd) =
        Except.ok (t2, (t.map Prod.snd).length)
      ∧ t2.length = (t.map Prod.snd).length := by
  have hrun' : remove_duplicates_loop criteria rows [] 0 = Except.ok (t, n) := hrun
  have hinv := remove_duplicates_loop_inv hrun' (by simp) (by simp)
  obtain ⟨t2, hloop, hlen⟩ :=
    remove_duplicates_loop_fresh t [] 0 hinv.1 hinv.2 (fun p _ => rfl)
  refine ⟨t2, ?_, ?_⟩
  · show remove_duplicates_loop criteria (t.map Prod.snd) [] 0 = _
    rw [hloop]
    simp
  · rw [hlen]
    simp

/-- C7 witness: rerunning on the two rows retained from the spec's three-row
scenario removes nothing. -/
theorem claim_C7_witness :
    ∃ t2, remove_duplicates [("name", [("method", "exact_case_insensitive")])]
        (([("alice", [("id", "2"), ("name", "alice")]),
           ("bob", [("id", "3"), ("name", "Bob")])] : Table).map Prod.snd) =
        Except.ok (t2,
          (([("alice", [("id", "2"), ("name", "alice")]),
             ("bob", [("id", "3"), ("name", "Bob")])] : Table).map Prod.snd).length)
      ∧ t2.length =
          (([("alice", [("id", "2"), ("name", "alice")]),
             ("bob", [("id", "3"), ("name", "Bob")])] : Table).map Prod.snd).length :=
  claim_C7_idempotence [("name", [("method", "exact_case_insensitive")])]
    [[("id", "1"), ("name", "Alice")],
     [("id", "2"), ("name", "alice")],
     [("id", "3"), ("name", "Bob")]]
    [("alice", [("id", "2"), ("name", "alice")]),
     ("bob", [("id", "3"), ("name", "Bob")])]
    3 (by rfl)

/-- C8 counterexample: a specification whose only descriptor lacks the
"method" key is a configuration error for the resolver, yet on an input with
zero data rows `remove_duplicates` succeeds and returns an (empty) result:
the claim that configuration errors abort every run regardless of the input,
including an empty one, is false of the code, because the source resolves
normalization functions inside the per-row loop. -/
theorem claim_C8_counterexample :
    resolveAll [("a", [("x", "y")])] = Except.error SpecError.missingAttribute
    ∧ remove_duplicates [("a", [("x", "y")])] [] = Except.ok ([], 0) :=
  ⟨rfl, rfl⟩

/-- C8 (amended): for every run whose specification fails to resolve (missing
"method" key or unrecognized method name) and whose input holds at least one
data row, the run aborts with that configuration error, which is of
missing-attribute or unrecognized-method class. -/
theorem claim_C8_config_error_aborts (criteria : Criteria) (rows : List Row)
    (e : SpecError) (hres : resolveAll criteria = Except.error e)
    (hrows : rows ≠ []) :
    remove_duplicates criteria rows = Except.error e
    ∧ (e = SpecError.missingAttribute ∨ ∃ m, e = SpecError.unrecognizedMethod m) := by
  constructor
  · cases rows with
    | nil => exact absurd rfl hrows
    | cons r rs => exact remove_duplicates_loop_resolveError hres
  · exact resolveAll_error_shape hres

/-- C8 witness: an unrecognized method name aborts a one-row run. -/
theorem claim_C8_witness :
    remove_duplicates [("a", [("method", "bogus")])] [[("a", "1")]] =
      Except.error (SpecError.unrecognizedMethod "bogus")
    ∧ (SpecError.unrecognizedMethod "bogus" = SpecError.missingAttribute
        ∨ ∃ m, SpecError.unrecognizedMethod "bogus" = SpecError.unrecognizedMethod m) :=
  claim_C8_config_error_aborts [("a", [("method", "bogus")])] [[("a", "1")]]
    (SpecError.unrecognizedMethod "bogus") (by rfl) (by simp)

/-- C9: under the empty specification every row's composite key is the empty
string, so a non-empty input collapses to exactly its last row, and an empty
input yields an empty result. -/
theorem claim_C9_empty_specification_collapse (rows : List Row) :
    (∀ r, rows.getLast? = some r →
        remove_duplicates ([] : Criteria) rows = Except.ok ([("", r)], rows.length))
    ∧ (rows = [] → remove_duplicates ([] : Criteria) rows = Except.ok ([], 0))
    ∧ ∀ r ∈ rows, keyOfRow ([] : Criteria) r = Except.ok "" := by
  refine ⟨?_, ?_, ?_⟩
  · intro r hr
    cases rows with
    | nil => cases hr
    | cons a rs =>
        have hr' : rs.getLastD a = r := by simpa [List.getLast?_cons] using hr
        have step : remove_duplicates ([] : Criteria) (a :: rs) =
            remove_duplicates_loop [] rs [("", a)] 1 := by
          simp [remove_duplicates, remove_duplicates_loop, resolveAll, track_row,
            buildKey, dictInsert]
        rw [step, remove_duplicates_loop_empty_criteria rs a 1, hr']
        simp only [Except.ok.injEq, Prod.mk.injEq, List.length_cons]
        exact ⟨trivial, by omega⟩
  · intro h
    rw [h]
    rfl
  · intro r _
    rfl

/-- C9 witness: two rows under the empty specification collapse to the second
row. -/
theorem claim_C9_witness :
    remove_duplicates ([] : Criteria) [[("x", "1")], [("x", "2")]] =
      Except.ok ([("", [("x", "2")])], ([[("x", "1")], [("x", "2")]] : List Row).length) :=
  (claim_C9_empty_specification_collapse [[("x", "1")], [("x", "2")]]).1
    [("x", "2")] (by rfl)

/-- C10: determinism: the engine and the resolver are pure functions of the
row sequence and the specification, so equal inputs give the same outcome
(the same error, or the same table and counts). -/
theorem claim_C10_determinism (criteria1 criteria2 : Criteria)
    (rows1 rows2 : List Row) (hc : criteria1 = criteria2) (hrows : rows1 = rows2) :
    remove_duplicates criteria1 rows1 = remove_duplicates criteria2 rows2
    ∧ ∀ d1 d2 : Desc, d1 = d2 →
        get_value_hash_function d1 = get_value_hash_function d2 := by
  subst hc
  subst hrows
  exact ⟨rfl, fun d1 d2 h => by rw [h]⟩

/-- C10 witness: the two runs at a concrete equal input agree. -/
theorem claim_C10_witness :
    remove_duplicates [("a", [("method", "exact")])] [[("a", "1")]] =
      remove_duplicates [("a", [("method", "exact")])] [[("a", "1")]]
    ∧ ∀ d1 d2 : Desc, d1 = d2 →
        get_value_hash_function d1 = get_value_hash_function d2 :=
  claim_C10_determinism [("a", [("method", "exact")])] [("a", [("method", "exact")])]
    [[("a", "1")]] [[("a", "1")]] rfl rfl

end RemoveDuplicates
